import Mathlib

/-!
Shallow embedding of the inventory / sales application ("zaiko-app").

The source is a React application; its core logic lives in the event
handlers of `App` (the newer revision, `src/unnamed/part_000`, which stores
sales with full timestamps and computes hourly statistics) and in
`Settings.handleImport` (bulk restore).  The React `useState` cells
(`materials`, `recipes`, `salesLog`, `nextMaterialId`, `nextRecipeId`,
`nextSaleId`) are modelled as one record `AppState`; each handler becomes a
pure function on `AppState`.

Numeric modelling choices:
* JavaScript numbers that hold quantities, stocks, prices and counters are
  modelled as `ℚ` (the app explicitly allows fractional stock and item
  quantities, e.g. `qty: 0.5`); `NaN` inputs are modelled as `Option`
  values at the parsing boundary (`none` = failed parse).
* Entity identifiers are modelled as `ℕ`.
* Timestamps (`new Date(...)` values, compared and bucketed by hour) are
  modelled as epoch milliseconds `ℤ`, with a single fixed timezone offset
  of zero: the app runs in one local timezone and `getHours` is taken as
  `t / 3600000 % 24`.
-/

/-- A raw material row: `{ id, name, stock, deadline, consumed }`. -/
structure Material where
  id : ℕ
  name : String
  stock : ℚ
  deadline : ℚ
  consumed : ℚ
deriving DecidableEq, Repr

/-- One component of a recipe: `{ materialId, qty }`. -/
structure RecipeItem where
  materialId : ℕ
  qty : ℚ
deriving DecidableEq, Repr

/-- A recipe row: `{ id, name, price, items, soldCount }`. -/
structure Recipe where
  id : ℕ
  name : String
  price : ℚ
  items : List RecipeItem
  soldCount : ℚ
deriving DecidableEq, Repr

/-- A sales-log row: `{ id, recipeId, qty, pricePerUnit, timestamp }`. -/
structure Sale where
  id : ℕ
  recipeId : ℕ
  qty : ℚ
  pricePerUnit : ℚ
  timestamp : ℤ
deriving DecidableEq, Repr

/-- The whole mutable state of the `App` component: the three collections
plus the three next-id counters. -/
structure AppState where
  materials : List Material
  recipes : List Recipe
  salesLog : List Sale
  nextMaterialId : ℕ
  nextRecipeId : ℕ
  nextSaleId : ℕ
deriving DecidableEq, Repr

/-- Errors surfaced by `alert(...)` in the handlers. -/
inductive SellError where
  | invalidQuantity
  | insufficientStock (name : String) (required current : ℚ)
deriving DecidableEq, Repr

/-- Validation loop of `handleSellRecipe`:
`for (const item of recipe.items) { const material = materials.find(m => m.id === item.materialId); if (!material || material.stock < item.qty * qty) { alert(...); return; } }`.
Returns the data of the first failing item (material name with the
`|| '不明'` fallback, required amount `item.qty * qty`, current stock with
the `|| 0` fallback), or `none` when every item passes. -/
def checkItems (materials : List Material) (q : ℚ) : List RecipeItem → Option (String × ℚ × ℚ)
  | [] => none
  | i :: rest =>
    match materials.find? (fun m => m.id == i.materialId) with
    | none => some ("不明", i.qty * q, 0)
    | some m =>
      if m.stock < i.qty * q then
        some ((if m.name = "" then "不明" else m.name), i.qty * q, m.stock)
      else
        checkItems materials q rest

/-- Per-material update of the commit phase
(`prev.map(m => { const item = recipe.items.find(i => i.materialId === m.id); ... })`):
when some recipe item matches the material's id, subtract
`item.qty * qty` from stock and add it to consumed. -/
def sellMat (r : Recipe) (q : ℚ) (m : Material) : Material :=
  match r.items.find? (fun i => i.materialId == m.id) with
  | some i => { m with stock := m.stock - i.qty * q, consumed := m.consumed + i.qty * q }
  | none => m

/-- Per-recipe update of the commit phase: bump `soldCount` by the sold
quantity on the recipe with the sold id. -/
def sellRec (rid : ℕ) (q : ℚ) (rr : Recipe) : Recipe :=
  if rr.id == rid then { rr with soldCount := rr.soldCount + q } else rr

/-- Commit phase of `handleSellRecipe`: rebuild `materials` decrementing
stock / incrementing consumed for each material matched by the *first*
recipe item with its id (`recipe.items.find(i => i.materialId === m.id)`),
bump the recipe's `soldCount`, append the new `Sale`, advance the sale id
counter. `now` is the current time used for the sale's timestamp. -/
def commitSell (now : ℤ) (st : AppState) (r : Recipe) (q : ℚ) : AppState :=
  { st with
    materials := st.materials.map (sellMat r q),
    recipes := st.recipes.map (sellRec r.id q),
    salesLog := st.salesLog ++
      [{ id := st.nextSaleId, recipeId := r.id, qty := q, pricePerUnit := r.price,
         timestamp := now }],
    nextSaleId := st.nextSaleId + 1 }

/-- `handleSellRecipe(recipe, qty)`: reject non-positive quantity, then run
the validation loop over all items, and only if every item passes commit
the whole transaction. An error result leaves the state untouched (the
handler returns before any `set*` call). -/
def handleSellRecipe (now : ℤ) (st : AppState) (r : Recipe) (q : ℚ) :
    Except SellError AppState :=
  if q ≤ 0 then
    .error .invalidQuantity
  else
    match checkItems st.materials q r.items with
    | some e => .error (.insufficientStock e.1 e.2.1 e.2.2)
    | none => .ok (commitSell now st r q)

/-- The state actually reached after a sale attempt: the committed state on
success, the unchanged state on failure. -/
def applySell (now : ℤ) (st : AppState) (r : Recipe) (q : ℚ) : AppState :=
  match handleSellRecipe now st r q with
  | .ok st' => st'
  | .error _ => st

/-- `handleStockIn(materialId, qty)`: reject `qty <= 0` (no mutation),
otherwise add `qty` to the matching material's stock. -/
def handleStockIn (st : AppState) (materialId : ℕ) (q : ℚ) : AppState :=
  if q ≤ 0 then st
  else
    { st with
      materials := st.materials.map (fun m =>
        if m.id == materialId then { m with stock := m.stock + q } else m) }

/-- `handleAddMaterial`: requires a non-empty (trimmed) name and a
non-negative parsed stock; appends `{ id: nextMaterialId, name, stock,
deadline, consumed: 0 }` and bumps the material id counter. -/
def handleAddMaterial (st : AppState) (name : String) (stock deadline : ℚ) : AppState :=
  if name = "" ∨ stock < 0 then st
  else
    { st with
      materials := st.materials ++
        [{ id := st.nextMaterialId, name := name, stock := stock, deadline := deadline,
           consumed := 0 }],
      nextMaterialId := st.nextMaterialId + 1 }

/-- Error results of the two delete handlers (surfaced as `alert`s). -/
inductive DeleteError where
  | materialInUse
deriving DecidableEq, Repr

/-- `handleDeleteMaterial(materialId)`: blocked with the material-in-use
alert when any recipe's items reference the id; otherwise (after the
confirm dialog, modelled as accepted) the material is filtered out.
Recipes and the sales log are untouched. -/
def handleDeleteMaterial (st : AppState) (materialId : ℕ) : Except DeleteError AppState :=
  if st.recipes.any (fun r => r.items.any (fun i => i.materialId == materialId)) then
    .error .materialInUse
  else
    .ok { st with materials := st.materials.filter (fun m => m.id != materialId) }

/-- `handleDeleteRecipe(recipeId)` (confirm dialog accepted): filter the
recipe out of `recipes` and every sale with that `recipeId` out of
`salesLog`. -/
def handleDeleteRecipe (st : AppState) (recipeId : ℕ) : AppState :=
  { st with
    recipes := st.recipes.filter (fun r => r.id != recipeId),
    salesLog := st.salesLog.filter (fun s => s.recipeId != recipeId) }

/-- A recipe-form row after numeric parsing:
`{ materialId: parseInt(...), qty: parseFloat(...) }`, with `none` for a
`NaN` parse result. -/
structure RawItem where
  materialId : Option ℕ
  qty : Option ℚ
deriving DecidableEq, Repr

/-- The item filter of `RecipeForm.handleSubmit`:
`.filter(item => !isNaN(item.materialId) && item.materialId && !isNaN(item.qty) && item.qty > 0)` —
the material id must parse to a nonzero (truthy) number and the quantity
must parse to a positive number.  Nothing is checked against the materials
collection here. -/
def validItem (raw : RawItem) : Option RecipeItem :=
  match raw.materialId, raw.qty with
  | some mid, some q => if mid ≠ 0 ∧ 0 < q then some ⟨mid, q⟩ else none
  | _, _ => none

/-- Error results of `RecipeForm.handleSubmit`. -/
inductive RecipeError where
  | emptyName
  | emptyRecipe
deriving DecidableEq, Repr

/-- `RecipeForm.handleSubmit`: reject an empty (trimmed) name; drop invalid
item rows via `validItem`; reject when no items survive; otherwise append
`{ id: nextRecipeId, name, price, items, soldCount: 0 }` and bump the
recipe id counter. -/
def handleSubmitRecipe (st : AppState) (name : String) (price : ℚ) (raw : List RawItem) :
    Except RecipeError AppState :=
  if name = "" then .error .emptyName
  else
    let items := raw.filterMap validItem
    if items.isEmpty then .error .emptyRecipe
    else
      .ok { st with
            recipes := st.recipes ++
              [{ id := st.nextRecipeId, name := name, price := price, items := items,
                 soldCount := 0 }],
            nextRecipeId := st.nextRecipeId + 1 }

/-- Identifier recompute of `Settings.handleImport`:
`list.length > 0 ? Math.max(...list.map(x => x.id), 0) + 1 : 1`. -/
def recomputeNextId (ids : List ℕ) : ℕ :=
  if ids.isEmpty then 1 else ids.foldl max 0 + 1

/-- Bulk replace (`Settings.handleImport` after parsing succeeds): the
three collections are swapped for the imported ones and each next-id
counter is recomputed from the new data. -/
def replaceAll (st : AppState) (ms : List Material) (rs : List Recipe) (ss : List Sale) :
    AppState :=
  { st with
    materials := ms
    recipes := rs
    salesLog := ss
    nextMaterialId := recomputeNextId (ms.map Material.id)
    nextRecipeId := recomputeNextId (rs.map Recipe.id)
    nextSaleId := recomputeNextId (ss.map Sale.id) }

/-! ## Aggregation Engine (`StatsView`'s `useMemo` computation) -/

/-- Milliseconds per hour. -/
def msPerHour : ℤ := 3600000

/-- Milliseconds per day. -/
def msPerDay : ℤ := 86400000

/-- Hour-of-day of an epoch-millisecond timestamp (`new Date(t).getHours()`
with a zero timezone offset). -/
def hourOfDay (t : ℤ) : ℕ := ((t / msPerHour) % 24).toNat

/-- Start of the calendar day containing `t` (`setHours(0,0,0,0)`). -/
def dayFloor (t : ℤ) : ℤ := t / msPerDay * msPerDay

/-- The statistics filter selected in `StatsView`: `'today'`, `'all'` or
`'custom'` with the two date inputs.  A date input is a calendar day,
modelled by its day index (local midnight = `d * msPerDay`); `none` models
an empty date input (falsy `startDate` / `endDate`). -/
inductive StatsFilter where
  | today
  | all
  | custom (startD endD : Option ℤ)
deriving DecidableEq, Repr

/-- The date-range filtering applied to `salesLog` before aggregation.
`today` keeps sales within the current calendar day; `all` keeps
everything; `custom` filters to `[start 00:00:00.000, end 23:59:59.999]`
only when both dates are present *and* `start <= end` — otherwise the log
is left unfiltered (the `else`-branch of
`if (filterType === 'custom' && startDate && endDate)` and the inner
`if (start <= end)` both fall through with `log = salesLog`). -/
def filterLog (now : ℤ) (f : StatsFilter) (log : List Sale) : List Sale :=
  match f with
  | .today =>
    log.filter (fun s =>
      decide (dayFloor now ≤ s.timestamp) && decide (s.timestamp ≤ dayFloor now + (msPerDay - 1)))
  | .all => log
  | .custom startD endD =>
    match startD, endD with
    | some ds, some de =>
      if ds * msPerDay ≤ de * msPerDay + (msPerDay - 1) then
        log.filter (fun s =>
          decide (ds * msPerDay ≤ s.timestamp) &&
            decide (s.timestamp ≤ de * msPerDay + (msPerDay - 1)))
      else log
    | _, _ => log

/-- Per-recipe rollup entry (`{ id, name, qty, sales }` in the `perRecipe`
map; the key is kept separately in the association list). -/
structure RecipeAgg where
  name : String
  qty : ℚ
  sales : ℚ
deriving DecidableEq, Repr

/-- Hourly-series entry (`{ name, data }` in the `hourlySales` map): 24
buckets, `none` = the `null` no-data marker. -/
structure HourAgg where
  name : String
  data : List (Option ℚ)
deriving DecidableEq, Repr

/-- Insert-or-update on an association list, modelling a JavaScript `Map`:
updating an existing key keeps its (insertion-order) position, a new key is
appended at the end. -/
def upsert {α : Type} (k : ℕ) (f : Option α → α) : List (ℕ × α) → List (ℕ × α)
  | [] => [(k, f none)]
  | (k₀, v₀) :: rest =>
    if k₀ = k then (k₀, f (some v₀)) :: rest else (k₀, v₀) :: upsert k f rest

/-- Result of the stats computation: the summary, the per-recipe rollups in
first-occurrence order (`Array.from(perRecipe.values())`), and the
per-recipe hourly series. -/
structure StatsResult where
  totalQty : ℚ
  totalSales : ℚ
  perRecipeStats : List (ℕ × RecipeAgg)
  hourly : List (ℕ × HourAgg)
deriving DecidableEq, Repr

/-- One iteration of the `log.forEach(sale => ...)` aggregation loop. -/
def statsStep (recipes : List Recipe) (acc : StatsResult) (s : Sale) : StatsResult :=
  let saleAmount := s.qty * s.pricePerUnit
  let name := match recipes.find? (fun r => r.id == s.recipeId) with
    | some r => r.name
    | none => "(削除済みの品名)"
  let hour := hourOfDay s.timestamp
  { totalQty := acc.totalQty + s.qty
    totalSales := acc.totalSales + saleAmount
    perRecipeStats := upsert s.recipeId (fun entry =>
      match entry with
      | none => { name := name, qty := s.qty, sales := saleAmount }
      | some e => { e with qty := e.qty + s.qty, sales := e.sales + saleAmount })
      acc.perRecipeStats
    hourly := upsert s.recipeId (fun entry =>
      let e := entry.getD { name := name, data := List.replicate 24 none }
      { e with data := e.data.set hour (some ((e.data.getD hour none).getD 0 + s.qty)) })
      acc.hourly }

/-- The aggregation loop over an (already filtered) log. -/
def computeAgg (recipes : List Recipe) (log : List Sale) : StatsResult :=
  log.foldl (statsStep recipes) { totalQty := 0, totalSales := 0, perRecipeStats := [], hourly := [] }

/-- The whole `StatsView` statistics computation: filter the sales log by
the selected time window, then aggregate. -/
def computeStats (now : ℤ) (f : StatsFilter) (recipes : List Recipe) (log : List Sale) :
    StatsResult :=
  computeAgg recipes (filterLog now f log)

/-! ## Operation sequences

The UI triggers the handlers above; `recordSale` is always invoked with a
recipe taken from the current `recipes` list (`onSell(recipe, 1)` in
`RecipesTable`), modelled by resolving the recipe id in the state. -/

/-- One user-triggered operation on the ledger. -/
inductive Op where
  | recordSale (recipeId : ℕ) (q : ℚ) (now : ℤ)
  | stockIn (materialId : ℕ) (q : ℚ)
  | addMaterial (name : String) (stock deadline : ℚ)
  | deleteMaterial (materialId : ℕ)
  | addRecipe (name : String) (price : ℚ) (raw : List RawItem)
  | deleteRecipe (recipeId : ℕ)
deriving DecidableEq, Repr

/-- Execute one operation; a rejected operation leaves the state unchanged
(every handler alerts and returns before mutating on failure). -/
def step (st : AppState) : Op → AppState
  | .recordSale rid q now =>
    match st.recipes.find? (fun r => r.id == rid) with
    | some r => applySell now st r q
    | none => st
  | .stockIn mid q => handleStockIn st mid q
  | .addMaterial name stock deadline => handleAddMaterial st name stock deadline
  | .deleteMaterial mid =>
    match handleDeleteMaterial st mid with
    | .ok st' => st'
    | .error _ => st
  | .addRecipe name price raw =>
    match handleSubmitRecipe st name price raw with
    | .ok st' => st'
    | .error _ => st
  | .deleteRecipe rid => handleDeleteRecipe st rid

/-- Execute a sequence of operations in order. -/
def execOps (st : AppState) (ops : List Op) : AppState :=
  ops.foldl step st

/-- Well-formedness of an application state: non-negative stocks, strictly
positive per-unit quantities in every recipe item, and id counters that are
fresh for (and ids unique in) the material and recipe collections.  This
holds for the app's seed data and is maintained by every operation. -/
def WF (st : AppState) : Prop :=
  (∀ m ∈ st.materials, 0 ≤ m.stock) ∧
  (∀ r ∈ st.recipes, ∀ i ∈ r.items, 0 < i.qty) ∧
  (∀ m ∈ st.materials, m.id < st.nextMaterialId) ∧
  (∀ r ∈ st.recipes, r.id < st.nextRecipeId) ∧
  (st.materials.map Material.id).Nodup ∧
  (st.recipes.map Recipe.id).Nodup

/-! ## Helper lemmas -/

theorem find?_key_eq_self {α : Type} (key : α → ℕ) {l : List α} {a : α}
    (hn : (l.map key).Nodup) (ha : a ∈ l) :
    l.find? (fun x => key x == key a) = some a := by
  induction l with
  | nil => cases ha
  | cons x xs ih =>
    rw [List.map_cons, List.nodup_cons] at hn
    rcases List.mem_cons.mp ha with rfl | hmem
    · simp [List.find?_cons]
    · have hne : (key x == key a) = false :=
        beq_eq_false_iff_ne.mpr (fun he => hn.1 (he ▸ List.mem_map_of_mem key hmem))
      simp [List.find?_cons, hne, ih hn.2 hmem]

theorem le_foldl_max (l : List ℕ) (a : ℕ) : a ≤ l.foldl max a := by
  induction l generalizing a with
  | nil => simp
  | cons x xs ih => exact le_trans (le_max_left a x) (ih (max a x))

theorem mem_le_foldl_max (l : List ℕ) (a : ℕ) : ∀ x ∈ l, x ≤ l.foldl max a := by
  induction l generalizing a with
  | nil => simp
  | cons y ys ih =>
    intro x hx
    rcases List.mem_cons.mp hx with rfl | hx
    · exact le_trans (le_max_right a x) (le_foldl_max ys (max a x))
    · exact ih (max a y) x hx

theorem foldl_max_mem (l : List ℕ) (a : ℕ) : l.foldl max a = a ∨ l.foldl max a ∈ l := by
  induction l generalizing a with
  | nil => simp
  | cons x xs ih =>
    rcases ih (max a x) with h | h
    · rcases max_cases a x with ⟨hm, _⟩ | ⟨hm, _⟩
      · left; rw [List.foldl_cons, h, hm]
      · right; rw [List.foldl_cons, h, hm]; exact List.mem_cons_self x xs
    · right; exact List.mem_cons_of_mem x h

theorem foldl_max_mem_of_ne_nil (l : List ℕ) (h : l ≠ []) : l.foldl max 0 ∈ l := by
  rcases foldl_max_mem l 0 with h0 | hm
  · cases l with
    | nil => exact absurd rfl h
    | cons x xs =>
      have hx : x ≤ (x :: xs).foldl max 0 := mem_le_foldl_max _ 0 x (List.mem_cons_self x xs)
      rw [h0] at hx
      have hx0 : x = 0 := Nat.le_zero.mp hx
      rw [h0, ← hx0]
      exact List.mem_cons_self x xs
  · exact hm

/-- Specification of the id recompute: `1` on an empty collection, a strict
upper bound of all ids, and exactly one more than some present id (i.e.
`max + 1`) on a non-empty collection. -/
theorem recomputeNextId_spec (ids : List ℕ) :
    (ids = [] → recomputeNextId ids = 1) ∧
    (∀ x ∈ ids, x < recomputeNextId ids) ∧
    (ids ≠ [] → ∃ x ∈ ids, recomputeNextId ids = x + 1) := by
  refine ⟨fun h => by simp [recomputeNextId, h], ?_, ?_⟩
  · intro x hx
    have hne : ids.isEmpty = false := by
      cases ids with
      | nil => cases hx
      | cons y ys => rfl
    have hb := mem_le_foldl_max ids 0 x hx
    simp [recomputeNextId, hne]
    omega
  · intro hne
    have hne' : ids.isEmpty = false := by
      cases ids with
      | nil => exact absurd rfl hne
      | cons y ys => rfl
    exact ⟨ids.foldl max 0, foldl_max_mem_of_ne_nil ids hne, by simp [recomputeNextId, hne']⟩

/-! ## Claim theorems: identifier allocator and integrity guard -/

/-- C5: after a bulk replace, each collection is exactly the imported data
(the recompute touches only the allocator counters), and each next-id
counter equals `max(existing ids) + 1` on a non-empty collection (it
strictly bounds every id and equals some id plus one) and `1` on an empty
one. -/
theorem replaceAll_recomputes_nextIds (st : AppState) (ms : List Material)
    (rs : List Recipe) (ss : List Sale) :
    (replaceAll st ms rs ss).materials = ms ∧
    (replaceAll st ms rs ss).recipes = rs ∧
    (replaceAll st ms rs ss).salesLog = ss ∧
    (ms = [] → (replaceAll st ms rs ss).nextMaterialId = 1) ∧
    (∀ m ∈ ms, m.id < (replaceAll st ms rs ss).nextMaterialId) ∧
    (ms ≠ [] → ∃ m ∈ ms, (replaceAll st ms rs ss).nextMaterialId = m.id + 1) ∧
    (rs = [] → (replaceAll st ms rs ss).nextRecipeId = 1) ∧
    (∀ r ∈ rs, r.id < (replaceAll st ms rs ss).nextRecipeId) ∧
    (rs ≠ [] → ∃ r ∈ rs, (replaceAll st ms rs ss).nextRecipeId = r.id + 1) ∧
    (ss = [] → (replaceAll st ms rs ss).nextSaleId = 1) ∧
    (∀ s ∈ ss, s.id < (replaceAll st ms rs ss).nextSaleId) ∧
    (ss ≠ [] → ∃ s ∈ ss, (replaceAll st ms rs ss).nextSaleId = s.id + 1) := by
  obtain ⟨hm1, hm2, hm3⟩ := recomputeNextId_spec (ms.map Material.id)
  obtain ⟨hr1, hr2, hr3⟩ := recomputeNextId_spec (rs.map Recipe.id)
  obtain ⟨hs1, hs2, hs3⟩ := recomputeNextId_spec (ss.map Sale.id)
  refine ⟨rfl, rfl, rfl, fun h => hm1 (by simp [h]), ?_, fun h => ?_,
    fun h => hr1 (by simp [h]), ?_, fun h => ?_, fun h => hs1 (by simp [h]), ?_,
    fun h => ?_⟩
  · intro m hm
    exact hm2 m.id (List.mem_map_of_mem Material.id hm)
  · obtain ⟨x, hx, hx1⟩ := hm3 (by simpa using h)
    obtain ⟨m, hmem, rfl⟩ := List.mem_map.mp hx
    exact ⟨m, hmem, hx1⟩
  · intro r hr
    exact hr2 r.id (List.mem_map_of_mem Recipe.id hr)
  · obtain ⟨x, hx, hx1⟩ := hr3 (by simpa using h)
    obtain ⟨r, hmem, rfl⟩ := List.mem_map.mp hx
    exact ⟨r, hmem, hx1⟩
  · intro s hs
    exact hs2 s.id (List.mem_map_of_mem Sale.id hs)
  · obtain ⟨x, hx, hx1⟩ := hs3 (by simpa using h)
    obtain ⟨s, hmem, rfl⟩ := List.mem_map.mp hx
    exact ⟨s, hmem, hx1⟩

/-- The empty app state, used as a base fixture. -/
def stEmpty : AppState :=
  { materials := [], recipes := [], salesLog := [], nextMaterialId := 1,
    nextRecipeId := 1, nextSaleId := 1 }

/-- Fixture material with id 3. -/
def mat3 : Material := { id := 3, name := "a", stock := 0, deadline := 0, consumed := 0 }

/-- Fixture material with id 7. -/
def mat7 : Material := { id := 7, name := "b", stock := 0, deadline := 0, consumed := 0 }

/-- C5 witness: restoring materials `[{id:3},{id:7}]` yields next material
id `8`; restoring an empty list yields `1`. -/
theorem replaceAll_recomputes_nextIds_witness :
    (replaceAll stEmpty [] [] []).nextMaterialId = 1 ∧
    (replaceAll stEmpty [mat3, mat7] [] []).nextMaterialId = 8 := by
  refine ⟨(replaceAll_recomputes_nextIds stEmpty [] [] []).2.2.2.1 rfl, ?_⟩
  decide

/-- C6: `deleteRecipe` removes the recipe with the given id and exactly the
sales referencing it: afterwards a sale is in the log iff it was there
before and references a different recipe (and likewise for recipes), the
surviving sales keep their relative order and contents, and materials are
untouched. -/
theorem deleteRecipe_cascades (st : AppState) (rid : ℕ) :
    (∀ s, s ∈ (handleDeleteRecipe st rid).salesLog ↔ s ∈ st.salesLog ∧ s.recipeId ≠ rid) ∧
    (∀ r, r ∈ (handleDeleteRecipe st rid).recipes ↔ r ∈ st.recipes ∧ r.id ≠ rid) ∧
    (handleDeleteRecipe st rid).salesLog.Sublist st.salesLog ∧
    (handleDeleteRecipe st rid).materials = st.materials := by
  refine ⟨?_, ?_, ?_, rfl⟩
  · intro s
    simp [handleDeleteRecipe, List.mem_filter, bne_iff_ne]
  · intro r
    simp [handleDeleteRecipe, List.mem_filter, bne_iff_ne]
  · simp [handleDeleteRecipe]

/-- C7: `deleteMaterial` fails with the material-in-use error iff some
recipe item references the id; otherwise it succeeds, removes exactly the
materials with that id, and leaves recipes and the sales log unchanged. -/
theorem deleteMaterial_inUse_iff (st : AppState) (mid : ℕ) :
    (handleDeleteMaterial st mid = .error .materialInUse ↔
      ∃ r ∈ st.recipes, ∃ i ∈ r.items, i.materialId = mid) ∧
    ((¬ ∃ r ∈ st.recipes, ∃ i ∈ r.items, i.materialId = mid) →
      ∃ st2, handleDeleteMaterial st mid = .ok st2 ∧
        (∀ m, m ∈ st2.materials ↔ m ∈ st.materials ∧ m.id ≠ mid) ∧
        st2.recipes = st.recipes ∧ st2.salesLog = st.salesLog) := by
  have hcond : (st.recipes.any (fun r => r.items.any (fun i => i.materialId == mid)) = true) ↔
      ∃ r ∈ st.recipes, ∃ i ∈ r.items, i.materialId = mid := by
    simp [List.any_eq_true]
  by_cases hb : st.recipes.any (fun r => r.items.any (fun i => i.materialId == mid)) = true
  · have hdef : handleDeleteMaterial st mid = .error .materialInUse := by
      simp [handleDeleteMaterial, hb]
    exact ⟨by simp [hdef, hcond.mp hb], fun hc => absurd (hcond.mp hb) hc⟩
  · have hb' : st.recipes.any (fun r => r.items.any (fun i => i.materialId == mid)) = false :=
      eq_false_of_ne_true hb
    have hdef : handleDeleteMaterial st mid =
        .ok { st with materials := st.materials.filter (fun m => m.id != mid) } := by
      simp [handleDeleteMaterial, hb']
    refine ⟨iff_of_false (by simp [hdef]) (fun h => hb (hcond.mpr h)), fun _ => ?_⟩
    exact ⟨_, hdef, fun m => by simp [List.mem_filter, bne_iff_ne], rfl, rfl⟩

/-- Fixture recipe whose single item references material id 3. -/
def recUse3 : Recipe :=
  { id := 1, name := "r", price := 0, items := [{ materialId := 3, qty := 1 }], soldCount := 0 }

/-- Fixture state holding material 3 and a recipe that uses it. -/
def stUse3 : AppState :=
  { materials := [mat3], recipes := [recUse3], salesLog := [], nextMaterialId := 8,
    nextRecipeId := 2, nextSaleId := 1 }

/-- C7 witness: with a recipe referencing material 3, deleting material 3
is blocked with the material-in-use error. -/
theorem deleteMaterial_inUse_iff_witness :
    handleDeleteMaterial stUse3 3 = .error .materialInUse := by
  exact (deleteMaterial_inUse_iff stUse3 3).1.mpr
    ⟨recUse3, by simp [stUse3], { materialId := 3, qty := 1 }, by simp [recUse3], rfl⟩

/-! ## Claim theorems: aggregation engine -/

/-- Fixture sales log with a single sale of 2 units at 600, 8:00. -/
def logC3 : List Sale :=
  [{ id := 1, recipeId := 1, qty := 2, pricePerUnit := 600, timestamp := 8 * 3600000 }]

/-- C3 counterexample: with an inverted custom range (start day 1, end day
0) the stats computation does *not* return a zeroed summary — it skips the
filtering and aggregates the whole log, so `totalQty` is 2, not 0. -/
theorem computeStats_inverted_range_not_zeroed :
    (computeStats 0 (StatsFilter.custom (some 1) (some 0)) [] logC3).totalQty = 2 ∧
      ((2 : ℚ) ≠ 0) := by
  norm_num [computeStats, filterLog, computeAgg, statsStep, logC3, msPerDay]

/-- C3 (amended): when the custom range is inverted (`startDate > endDate`)
or either date is absent, the date filter is skipped entirely and the
result equals the unfiltered (`all`) statistics, for every sales log. -/
theorem computeStats_invalid_custom_eq_all (now : ℤ) (recipes : List Recipe) (log : List Sale)
    (s e : Option ℤ)
    (h : s = none ∨ e = none ∨ ∃ ds de, s = some ds ∧ e = some de ∧ de < ds) :
    computeStats now (.custom s e) recipes log = computeStats now .all recipes log := by
  rcases h with rfl | rfl | ⟨ds, de, rfl, rfl, hlt⟩
  · cases e <;> rfl
  · cases s <;> rfl
  · simp only [computeStats, filterLog]
    rw [if_neg ?hc]
    case hc =>
      simp only [msPerDay]
      omega

/-- C3 witness: a concrete inverted range on the one-sale fixture log gives
the same result as the `all` filter. -/
theorem computeStats_invalid_custom_eq_all_witness :
    computeStats 0 (StatsFilter.custom (some 1) (some 0)) [] logC3 =
      computeStats 0 StatsFilter.all [] logC3 :=
  computeStats_invalid_custom_eq_all 0 [] logC3 (some 1) (some 0)
    (Or.inr (Or.inr ⟨1, 0, rfl, rfl, by decide⟩))

/-- Fixture recipes for the two-sale aggregation example. -/
def recipesC4 : List Recipe :=
  [{ id := 1, name := "A", price := 600, items := [], soldCount := 3 },
   { id := 2, name := "B", price := 750, items := [], soldCount := 5 }]

/-- Fixture log for the two-sale aggregation example: 2 units at 600 for
recipe 1 (8:00) and 1 unit at 750 for recipe 2 (8:30). -/
def logC4 : List Sale :=
  [{ id := 1, recipeId := 1, qty := 2, pricePerUnit := 600, timestamp := 8 * 3600000 },
   { id := 2, recipeId := 2, qty := 1, pricePerUnit := 750, timestamp := 8 * 3600000 + 1800000 }]

/-- C4: over the two-sale example with filter `all`, the stats are
`totalQty = 3`, `totalSales = 1950`, exactly two per-recipe entries in
first-occurrence order, and for each recipe a 24-bucket hourly series whose
hour-8 bucket holds 2 resp. 1 while every other bucket holds the explicit
no-data marker `none` (not zero). -/
theorem computeStats_all_example :
    computeStats 0 StatsFilter.all recipesC4 logC4 =
      { totalQty := 3, totalSales := 1950,
        perRecipeStats := [(1, { name := "A", qty := 2, sales := 1200 }),
                           (2, { name := "B", qty := 1, sales := 750 })],
        hourly := [(1, { name := "A",
                         data := (List.replicate 24 (none : Option ℚ)).set 8 (some 2) }),
                   (2, { name := "B",
                         data := (List.replicate 24 (none : Option ℚ)).set 8 (some 1) })] } := by
  norm_num [computeStats, filterLog, computeAgg, statsStep, upsert, hourOfDay, msPerHour,
    logC4, recipesC4, List.find?_cons, List.replicate, List.set, List.getD]
  decide

/-! ## Claim theorems: consumption engine -/

/-- The validation loop passes exactly when every item resolves to a
material with sufficient stock. -/
theorem checkItems_eq_none_iff (mats : List Material) (q : ℚ) (items : List RecipeItem) :
    checkItems mats q items = none ↔
      ∀ i ∈ items, ∃ m, mats.find? (fun x => x.id == i.materialId) = some m ∧
        i.qty * q ≤ m.stock := by
  induction items with
  | nil => simp [checkItems]
  | cons i rest ih =>
    cases hf : mats.find? (fun m => m.id == i.materialId) with
    | none =>
      simp only [checkItems, hf]
      constructor
      · intro h; cases h
      · intro h
        obtain ⟨m, hm, _⟩ := h i (List.mem_cons_self i rest)
        rw [hf] at hm; cases hm
    | some m =>
      by_cases hs : m.stock < i.qty * q
      · simp only [checkItems, hf, if_pos hs]
        constructor
        · intro h; cases h
        · intro h
          obtain ⟨m2, hm2, hle⟩ := h i (List.mem_cons_self i rest)
          rw [hf] at hm2
          injection hm2 with he
          subst he
          exact absurd hle (not_le.mpr hs)
      · simp only [checkItems, hf, if_neg hs]
        rw [ih]
        constructor
        · intro h j hj
          rcases List.mem_cons.mp hj with rfl | hj
          · exact ⟨m, hf, not_lt.mp hs⟩
          · exact h j hj
        · intro h j hj
          exact h j (List.mem_cons_of_mem i hj)

/-- C1: `recordSale` is all-or-nothing: if any item of the recipe resolves
to no material or to a material with stock below `item.qty * quantity`,
the whole operation fails and the state is completely unchanged — no
material's stock or consumed moves, no soldCount moves, no sale is
appended. -/
theorem recordSale_allOrNothing (now : ℤ) (st : AppState) (r : Recipe) (q : ℚ)
    (hfail : ∃ i ∈ r.items,
      st.materials.find? (fun m => m.id == i.materialId) = none ∨
        ∃ m, st.materials.find? (fun m2 => m2.id == i.materialId) = some m ∧
          m.stock < i.qty * q) :
    (∃ e, handleSellRecipe now st r q = .error e) ∧ applySell now st r q = st := by
  have hfail2 : checkItems st.materials q r.items ≠ none := by
    rw [Ne, checkItems_eq_none_iff]
    intro hall
    obtain ⟨i, hi, hbad⟩ := hfail
    obtain ⟨m, hm, hle⟩ := hall i hi
    rcases hbad with hnone | ⟨m2, hm2, hlt⟩
    · rw [hm] at hnone; cases hnone
    · rw [hm] at hm2
      injection hm2 with he
      subst he
      exact absurd hle (not_le.mpr hlt)
  by_cases hq : q ≤ 0
  · refine ⟨⟨.invalidQuantity, by rw [handleSellRecipe, if_pos hq]⟩, ?_⟩
    simp [applySell, handleSellRecipe, if_pos hq]
  · cases hc : checkItems st.materials q r.items with
    | none => exact absurd hc hfail2
    | some e =>
      refine ⟨⟨.insufficientStock e.1 e.2.1 e.2.2, ?_⟩, ?_⟩
      · rw [handleSellRecipe, if_neg hq]
        simp [hc]
      · simp [applySell, handleSellRecipe, if_neg hq, hc]

/-- Fixture recipe for C1: needs 2 of material 1 and 100 of material 2. -/
def rC1 : Recipe :=
  { id := 1, name := "R", price := 600,
    items := [{ materialId := 1, qty := 2 }, { materialId := 2, qty := 100 }], soldCount := 0 }

/-- Fixture material A (id 1, ample stock 50). -/
def matA : Material := { id := 1, name := "A", stock := 50, deadline := 0, consumed := 0 }

/-- Fixture material B (id 2, short stock 10). -/
def matB : Material := { id := 2, name := "B", stock := 10, deadline := 0, consumed := 0 }

/-- Fixture state for C1: material A would suffice, material B would not. -/
def stC1 : AppState :=
  { materials := [matA, matB], recipes := [rC1], salesLog := [], nextMaterialId := 3,
    nextRecipeId := 2, nextSaleId := 1 }

/-- C1 witness: selling one unit of the fixture recipe fails on its second
item (needs 100 of B, only 10 on hand) and leaves the state — including
material A, already validated — untouched. -/
theorem recordSale_allOrNothing_witness :
    (∃ e, handleSellRecipe 0 stC1 rC1 1 = .error e) ∧ applySell 0 stC1 rC1 1 = stC1 :=
  recordSale_allOrNothing 0 stC1 rC1 1
    ⟨{ materialId := 2, qty := 100 }, by decide,
      Or.inr ⟨matB, by decide, by norm_num [matB]⟩⟩

/-- Fixture recipe for C8/C10 quantity handling: one unit of material 1. -/
def rC8 : Recipe :=
  { id := 1, name := "R", price := 600, items := [{ materialId := 1, qty := 1 }],
    soldCount := 0 }

/-- Fixture state for C8: material 1 with stock 1. -/
def stC8 : AppState :=
  { materials := [{ id := 1, name := "A", stock := 1, deadline := 0, consumed := 0 }],
    recipes := [rC8], salesLog := [], nextMaterialId := 2, nextRecipeId := 2, nextSaleId := 1 }

/-- C8 counterexample: the positive non-integer quantity `0.5` is *not*
rejected: the sale commits, halving the stock, adding `0.5` to consumed and
soldCount, and appending a sale with `qty = 0.5`. -/
theorem recordSale_accepts_fractional_qty :
    (applySell 0 stC8 rC8 (1/2)).materials =
      [{ id := 1, name := "A", stock := 1/2, deadline := 0, consumed := 1/2 }] ∧
    (applySell 0 stC8 rC8 (1/2)).recipes =
      [{ id := 1, name := "R", price := 600, items := [{ materialId := 1, qty := 1 }],
         soldCount := 1/2 }] ∧
    (applySell 0 stC8 rC8 (1/2)).salesLog =
      [{ id := 1, recipeId := 1, qty := 1/2, pricePerUnit := 600, timestamp := 0 }] ∧
    handleSellRecipe 0 stC8 rC8 (1/2) ≠ .error .invalidQuantity := by
  norm_num [applySell, handleSellRecipe, checkItems, commitSell, sellMat, sellRec, stC8, rC8,
    List.find?_cons]
  exact fun h => Except.noConfusion h

/-- C8 (amended): the quantity check of `recordSale` rejects (with
`InvalidQuantity`, leaving the state unchanged) exactly the quantities
`<= 0`; positive non-integers pass it. -/
theorem recordSale_invalidQuantity_iff (now : ℤ) (st : AppState) (r : Recipe) (q : ℚ) :
    (handleSellRecipe now st r q = .error .invalidQuantity ↔ q ≤ 0) ∧
    (q ≤ 0 → applySell now st r q = st) := by
  constructor
  · constructor
    · intro h
      by_contra hq
      rw [handleSellRecipe, if_neg hq] at h
      cases hc : checkItems st.materials q r.items with
      | none => rw [hc] at h; cases h
      | some e => rw [hc] at h; injection h with h2; cases h2
    · intro hq
      rw [handleSellRecipe, if_pos hq]
  · intro hq
    simp [applySell, handleSellRecipe, if_pos hq]

/-- C8 witness: quantity `0` is rejected with the invalid-quantity error
and the state is unchanged. -/
theorem recordSale_invalidQuantity_iff_witness :
    handleSellRecipe 0 stC8 rC8 0 = .error .invalidQuantity ∧ applySell 0 stC8 rC8 0 = stC8 :=
  ⟨(recordSale_invalidQuantity_iff 0 stC8 rC8 0).1.mpr le_rfl,
   (recordSale_invalidQuantity_iff 0 stC8 rC8 0).2 le_rfl⟩

/-- C10: on a recipe with duplicate entries for the same material, a
successful `recordSale` validated *every* duplicate entry independently
against the material's full current stock, while the commit applied only
the *first* matching entry: the material ends with
`stock - first.qty * q` / `consumed + first.qty * q` — later duplicate
entries are never applied. -/
theorem recordSale_duplicate_items (now : ℤ) (st : AppState) (r : Recipe) (q : ℚ)
    (st2 : AppState) (m : Material) (i0 : RecipeItem)
    (hok : handleSellRecipe now st r q = .ok st2)
    (hfind : st.materials.find? (fun x => x.id == m.id) = some m)
    (hi : r.items.find? (fun i => i.materialId == m.id) = some i0) :
    (∀ i ∈ r.items, i.materialId = m.id → i.qty * q ≤ m.stock) ∧
    { m with stock := m.stock - i0.qty * q, consumed := m.consumed + i0.qty * q } ∈
      st2.materials := by
  have hq : ¬ q ≤ 0 := by
    intro hq
    rw [handleSellRecipe, if_pos hq] at hok
    cases hok
  rw [handleSellRecipe, if_neg hq] at hok
  cases hc : checkItems st.materials q r.items with
  | some e => rw [hc] at hok; cases hok
  | none =>
    rw [hc] at hok
    injection hok with hok
    subst hok
    have hall := (checkItems_eq_none_iff st.materials q r.items).mp hc
    constructor
    · intro i hi2 hid
      obtain ⟨m2, hm2, hle⟩ := hall i hi2
      rw [hid] at hm2
      rw [hfind] at hm2
      injection hm2 with he
      subst he
      exact hle
    · have hmem : m ∈ st.materials := List.mem_of_find?_eq_some hfind
      simp only [commitSell, List.mem_map]
      exact ⟨m, hmem, by simp [sellMat, hi]⟩

/-- Fixture recipe for C10 with two entries for material 1 (2 and then 3
units per sale). -/
def rC10 : Recipe :=
  { id := 1, name := "R", price := 0,
    items := [{ materialId := 1, qty := 2 }, { materialId := 1, qty := 3 }], soldCount := 0 }

/-- Fixture material for C10: id 1, stock 10. -/
def matC10 : Material := { id := 1, name := "A", stock := 10, deadline := 0, consumed := 0 }

/-- Fixture state for C10. -/
def stC10 : AppState :=
  { materials := [matC10], recipes := [rC10], salesLog := [], nextMaterialId := 2,
    nextRecipeId := 2, nextSaleId := 1 }

/-- C10 witness: selling one unit of the duplicate-entry recipe demanded
`2 * 1 <= 10` and `3 * 1 <= 10` during validation, and the committed
material is the one decremented by the first entry only
(`10 - 2 * 1`, consumed `0 + 2 * 1`). -/
theorem recordSale_duplicate_items_witness :
    ((2 : ℚ) * 1 ≤ matC10.stock ∧ (3 : ℚ) * 1 ≤ matC10.stock) ∧
    ({ matC10 with stock := matC10.stock - 2 * 1, consumed := matC10.consumed + 2 * 1 }
        : Material) ∈ (commitSell 0 stC10 rC10 1).materials := by
  obtain ⟨hval, hmem⟩ :=
    recordSale_duplicate_items 0 stC10 rC10 1 (commitSell 0 stC10 rC10 1) matC10
      { materialId := 1, qty := 2 }
      (by norm_num [handleSellRecipe, checkItems, stC10, rC10, matC10, List.find?_cons])
      (by decide) (by decide)
  exact ⟨⟨hval { materialId := 1, qty := 2 } (by decide) rfl,
          hval { materialId := 1, qty := 3 } (by decide) rfl⟩, hmem⟩

/-! ## Claim theorems: recipe creation -/

/-- C9 counterexample: an item whose material id (999) resolves to *no*
material is **not** dropped: on an empty materials collection the recipe is
still created containing exactly that item. -/
theorem addRecipe_keeps_unresolvable_material :
    handleSubmitRecipe stEmpty "X" 0 [{ materialId := some 999, qty := some 1 }] =
      .ok { stEmpty with
            recipes := [{ id := 1, name := "X", price := 0,
                          items := [{ materialId := 999, qty := 1 }], soldCount := 0 }],
            nextRecipeId := 2 } ∧
    stEmpty.materials = [] := by
  exact ⟨rfl, rfl⟩

/-- C9 (amended): `addRecipe` silently drops exactly the item rows whose
material id fails numeric parsing or is zero/empty, or whose quantity
fails parsing or is non-positive — resolvability against the materials
collection is *not* checked.  With no surviving item it fails with
`EmptyRecipe` and adds nothing; otherwise it appends a single recipe with
`soldCount = 0` holding exactly the surviving items. -/
theorem addRecipe_filters_items (st : AppState) (name : String) (price : ℚ)
    (raw : List RawItem) (hname : name ≠ "") :
    (∀ rw2 i, validItem rw2 = some i ↔
        rw2.materialId = some i.materialId ∧ rw2.qty = some i.qty ∧
          i.materialId ≠ 0 ∧ 0 < i.qty) ∧
    ((∀ rw2 ∈ raw, validItem rw2 = none) →
      handleSubmitRecipe st name price raw = .error .emptyRecipe) ∧
    (∀ i0 rw0, rw0 ∈ raw → validItem rw0 = some i0 →
      ∃ nr, handleSubmitRecipe st name price raw =
          .ok { st with
                recipes := st.recipes ++ [nr],
                nextRecipeId := st.nextRecipeId + 1 } ∧
        nr.soldCount = 0 ∧ nr.name = name ∧ nr.price = price ∧ nr.id = st.nextRecipeId ∧
        (∀ j, j ∈ nr.items ↔ ∃ rw2 ∈ raw, validItem rw2 = some j)) := by
  refine ⟨?_, ?_, ?_⟩
  · intro rw2 i
    rcases rw2 with ⟨mid?, q?⟩
    rcases i with ⟨imid, iq⟩
    cases mid? with
    | none => simp [validItem]
    | some mid =>
      cases q? with
      | none => simp [validItem]
      | some q =>
        by_cases h : mid ≠ 0 ∧ 0 < q
        · simp only [validItem, if_pos h, Option.some.injEq, RecipeItem.mk.injEq]
          constructor
          · rintro ⟨rfl, rfl⟩
            exact ⟨rfl, rfl, h.1, h.2⟩
          · rintro ⟨h1, h2, _, _⟩
            exact ⟨h1, h2⟩
        · simp only [validItem, if_neg h, Option.some.injEq]
          constructor
          · intro hfalse
            exact Option.noConfusion hfalse
          · rintro ⟨rfl, rfl, h3, h4⟩
            exact absurd ⟨h3, h4⟩ h
  · intro hall
    have hnil : raw.filterMap validItem = [] := List.filterMap_eq_nil_iff.mpr hall
    simp [handleSubmitRecipe, hname, hnil]
  · intro i0 rw0 hmem hv
    have hin : i0 ∈ raw.filterMap validItem := List.mem_filterMap.mpr ⟨rw0, hmem, hv⟩
    have hne : (raw.filterMap validItem).isEmpty = false := by
      cases hfm : raw.filterMap validItem with
      | nil => rw [hfm] at hin; cases hin
      | cons a l => rfl
    refine ⟨{ id := st.nextRecipeId, name := name, price := price,
              items := raw.filterMap validItem, soldCount := 0 }, ?_, rfl, rfl, rfl, rfl, ?_⟩
    · simp [handleSubmitRecipe, hname, hne]
    · intro j
      simp [List.mem_filterMap]

/-- Fixture raw rows that are all invalid: falsy id 0, unparsable id,
unparsable quantity, non-positive quantity. -/
def rawBad : List RawItem :=
  [{ materialId := some 0, qty := some 1 },
   { materialId := none, qty := some 1 },
   { materialId := some 2, qty := none },
   { materialId := some 3, qty := some 0 }]

/-- C9 witness: when every raw row is invalid, the whole submit fails with
`EmptyRecipe`. -/
theorem addRecipe_filters_items_witness :
    handleSubmitRecipe stEmpty "R" 5 rawBad = .error .emptyRecipe :=
  (addRecipe_filters_items stEmpty "R" 5 rawBad (by decide)).2.1 (by decide)

/-! ## Invariant preservation over operation sequences (C2) -/

/-- Case analysis of a sale attempt: either nothing changed, or the
quantity was positive, every item validated, and the commit ran. -/
theorem applySell_cases (now : ℤ) (st : AppState) (r : Recipe) (q : ℚ) :
    applySell now st r q = st ∨
      (¬ q ≤ 0 ∧ checkItems st.materials q r.items = none ∧
        applySell now st r q = commitSell now st r q) := by
  by_cases hq : q ≤ 0
  · left
    simp [applySell, handleSellRecipe, if_pos hq]
  · cases hc : checkItems st.materials q r.items with
    | some e =>
      left
      simp [applySell, handleSellRecipe, if_neg hq, hc]
    | none =>
      right
      exact ⟨hq, rfl, by simp [applySell, handleSellRecipe, if_neg hq, hc]⟩

/-- Case analysis of a recipe submit: either an error (state untouched by
`step`) or the appended-recipe success state. -/
theorem handleSubmitRecipe_cases (st : AppState) (name : String) (price : ℚ)
    (raw : List RawItem) :
    (∃ err, handleSubmitRecipe st name price raw = .error err) ∨
      handleSubmitRecipe st name price raw =
        .ok { st with
              recipes := st.recipes ++
                [{ id := st.nextRecipeId, name := name, price := price,
                   items := raw.filterMap validItem, soldCount := 0 }],
              nextRecipeId := st.nextRecipeId + 1 } := by
  by_cases hn : name = ""
  · exact Or.inl ⟨.emptyName, by simp [handleSubmitRecipe, hn]⟩
  · cases he : (raw.filterMap validItem).isEmpty with
    | true => exact Or.inl ⟨.emptyRecipe, by simp [handleSubmitRecipe, hn, he]⟩
    | false => exact Or.inr (by simp [handleSubmitRecipe, hn, he])

/-- Items surviving the recipe-form filter have strictly positive
quantity. -/
theorem validItem_pos {rw2 : RawItem} {i : RecipeItem} (h : validItem rw2 = some i) :
    0 < i.qty := by
  rcases rw2 with ⟨mid?, q?⟩
  cases mid? with
  | none => cases h
  | some mid =>
    cases q? with
    | none => cases h
    | some q =>
      have h2 : (if mid ≠ 0 ∧ 0 < q then some ({ materialId := mid, qty := q } : RecipeItem)
          else none) = some i := h
      by_cases hc : mid ≠ 0 ∧ 0 < q
      · rw [if_pos hc] at h2
        injection h2 with h2
        subst h2
        exact hc.2
      · rw [if_neg hc] at h2
        cases h2

/-- Mapping an id-preserving function leaves the id projection of a
material list unchanged. -/
theorem map_material_id_eq {f : Material → Material} (hf : ∀ m, (f m).id = m.id)
    (l : List Material) : (l.map f).map Material.id = l.map Material.id := by
  rw [List.map_map]
  exact List.map_congr_left (fun m _ => hf m)

/-- Mapping an id-preserving function leaves the id projection of a recipe
list unchanged. -/
theorem map_recipe_id_eq {f : Recipe → Recipe} (hf : ∀ r, (f r).id = r.id)
    (l : List Recipe) : (l.map f).map Recipe.id = l.map Recipe.id := by
  rw [List.map_map]
  exact List.map_congr_left (fun r _ => hf r)

/-- Appending one fresh element keeps a `Nodup` id list `Nodup`. -/
theorem nodup_append_singleton {l : List ℕ} {a : ℕ} (hl : l.Nodup) (ha : a ∉ l) :
    (l ++ [a]).Nodup := by
  rw [List.nodup_append]
  exact ⟨hl, List.nodup_singleton a, by simpa [List.disjoint_singleton] using ha⟩

/-- Growth relation between states threaded through the induction: id
counters never shrink, and every material (resp. recipe) of the new state
either descends from one of the old state with the same id and
no-smaller `consumed` (resp. `soldCount`), or is a fresh one whose id is
at least the old counter. -/
def StepMono (st st2 : AppState) : Prop :=
  st.nextMaterialId ≤ st2.nextMaterialId ∧
  st.nextRecipeId ≤ st2.nextRecipeId ∧
  (∀ m2 ∈ st2.materials,
    (∃ m ∈ st.materials, m2.id = m.id ∧ m.consumed ≤ m2.consumed) ∨
      st.nextMaterialId ≤ m2.id) ∧
  (∀ r2 ∈ st2.recipes,
    (∃ r ∈ st.recipes, r2.id = r.id ∧ r.soldCount ≤ r2.soldCount) ∨
      st.nextRecipeId ≤ r2.id)

theorem stepMono_refl (st : AppState) : StepMono st st :=
  ⟨le_rfl, le_rfl, fun m2 h2 => Or.inl ⟨m2, h2, rfl, le_rfl⟩,
    fun r2 h2 => Or.inl ⟨r2, h2, rfl, le_rfl⟩⟩

theorem stepMono_trans {st1 st2 st3 : AppState} (h12 : StepMono st1 st2)
    (h23 : StepMono st2 st3) : StepMono st1 st3 := by
  obtain ⟨ha1, hb1, hm1, hr1⟩ := h12
  obtain ⟨ha2, hb2, hm2, hr2⟩ := h23
  refine ⟨le_trans ha1 ha2, le_trans hb1 hb2, ?_, ?_⟩
  · intro m3 h3
    rcases hm2 m3 h3 with ⟨m2, h2, hid, hc⟩ | hfresh
    · rcases hm1 m2 h2 with ⟨m1, h1, hid1, hc1⟩ | hfresh1
      · exact Or.inl ⟨m1, h1, hid.trans hid1, le_trans hc1 hc⟩
      · exact Or.inr (by rw [hid]; exact hfresh1)
    · exact Or.inr (le_trans ha1 hfresh)
  · intro r3 h3
    rcases hr2 r3 h3 with ⟨r2, h2, hid, hc⟩ | hfresh
    · rcases hr1 r2 h2 with ⟨r1, h1, hid1, hc1⟩ | hfresh1
      · exact Or.inl ⟨r1, h1, hid.trans hid1, le_trans hc1 hc⟩
      · exact Or.inr (by rw [hid]; exact hfresh1)
    · exact Or.inr (le_trans hb1 hfresh)

theorem sellMat_id (r : Recipe) (q : ℚ) (m : Material) : (sellMat r q m).id = m.id := by
  simp only [sellMat]
  cases r.items.find? (fun i => i.materialId == m.id) <;> rfl

theorem sellRec_id (rid : ℕ) (q : ℚ) (rr : Recipe) : (sellRec rid q rr).id = rr.id := by
  simp only [sellRec]
  cases rr.id == rid <;> simp

theorem sellRec_items (rid : ℕ) (q : ℚ) (rr : Recipe) : (sellRec rid q rr).items = rr.items := by
  simp only [sellRec]
  cases rr.id == rid <;> simp

theorem sellRec_soldCount_le (rid : ℕ) {q : ℚ} (hq : 0 ≤ q) (rr : Recipe) :
    rr.soldCount ≤ (sellRec rid q rr).soldCount := by
  simp only [sellRec]
  cases rr.id == rid <;> simp
  linarith

/-- Under the well-formedness invariant, a validated commit keeps the state
well-formed and grows only the monotone fields. -/
theorem commitSell_wf_mono (now : ℤ) (st : AppState) (r : Recipe) (q : ℚ)
    (hwf : WF st) (hr : r ∈ st.recipes) (hq : ¬ q ≤ 0)
    (hc : checkItems st.materials q r.items = none) :
    WF (commitSell now st r q) ∧ StepMono st (commitSell now st r q) := by
  obtain ⟨hstock, hqty, hmidb, hridb, hmnd, hrnd⟩ := hwf
  have hq' : 0 < q := not_le.mp hq
  have hall := (checkItems_eq_none_iff st.materials q r.items).mp hc
  have hconsumed : ∀ m ∈ st.materials, m.consumed ≤ (sellMat r q m).consumed := by
    intro m hm
    simp only [sellMat]
    cases hf : r.items.find? (fun i => i.materialId == m.id) with
    | none => simp
    | some i =>
      have hipos : 0 < i.qty := hqty r hr i (List.mem_of_find?_eq_some hf)
      simp only
      nlinarith
  constructor
  · refine ⟨?_, ?_, ?_, ?_, ?_, ?_⟩
    · intro m2 hm2
      simp only [commitSell] at hm2
      obtain ⟨m, hm, rfl⟩ := List.mem_map.mp hm2
      simp only [sellMat]
      cases hf : r.items.find? (fun i => i.materialId == m.id) with
      | none => exact hstock m hm
      | some i =>
        have hpred := List.find?_some hf
        have hid : i.materialId = m.id := eq_of_beq hpred
        obtain ⟨m0, hm0, hle⟩ := hall i (List.mem_of_find?_eq_some hf)
        rw [hid] at hm0
        rw [find?_key_eq_self Material.id hmnd hm] at hm0
        injection hm0 with hm0
        subst hm0
        simp only
        linarith
    · intro r2 hr2
      simp only [commitSell] at hr2
      obtain ⟨rr, hrr, rfl⟩ := List.mem_map.mp hr2
      rw [sellRec_items]
      exact hqty rr hrr
    · intro m2 hm2
      simp only [commitSell] at hm2 ⊢
      obtain ⟨m, hm, rfl⟩ := List.mem_map.mp hm2
      rw [sellMat_id]
      exact hmidb m hm
    · intro r2 hr2
      simp only [commitSell] at hr2 ⊢
      obtain ⟨rr, hrr, rfl⟩ := List.mem_map.mp hr2
      rw [sellRec_id]
      exact hridb rr hrr
    · simp only [commitSell]
      rw [map_material_id_eq (sellMat_id r q)]
      exact hmnd
    · simp only [commitSell]
      rw [map_recipe_id_eq (sellRec_id r.id q)]
      exact hrnd
  · refine ⟨le_rfl, le_rfl, ?_, ?_⟩
    · intro m2 hm2
      simp only [commitSell] at hm2
      obtain ⟨m, hm, rfl⟩ := List.mem_map.mp hm2
      exact Or.inl ⟨m, hm, sellMat_id r q m, hconsumed m hm⟩
    · intro r2 hr2
      simp only [commitSell] at hr2
      obtain ⟨rr, hrr, rfl⟩ := List.mem_map.mp hr2
      exact Or.inl ⟨rr, hrr, sellRec_id r.id q rr, sellRec_soldCount_le r.id (le_of_lt hq') rr⟩

/-- Filtering materials preserves well-formedness and the growth
relation. -/
theorem wf_mono_filter_materials (st : AppState) (p : Material → Bool) (hwf : WF st) :
    WF { st with materials := st.materials.filter p } ∧
      StepMono st { st with materials := st.materials.filter p } := by
  obtain ⟨hstock, hqty, hmidb, hridb, hmnd, hrnd⟩ := hwf
  refine ⟨⟨?_, hqty, ?_, hridb, ?_, hrnd⟩, le_rfl, le_rfl, ?_, ?_⟩
  · intro m hm
    exact hstock m (List.mem_of_mem_filter hm)
  · intro m hm
    exact hmidb m (List.mem_of_mem_filter hm)
  · show ((st.materials.filter p).map Material.id).Nodup
    exact hmnd.sublist ((List.filter_sublist st.materials).map Material.id)
  · intro m2 hm2
    exact Or.inl ⟨m2, List.mem_of_mem_filter hm2, rfl, le_rfl⟩
  · intro r2 hr2
    exact Or.inl ⟨r2, hr2, rfl, le_rfl⟩

/-- Deleting a recipe (with its sales cascade) preserves well-formedness
and the growth relation. -/
theorem wf_mono_deleteRecipe (st : AppState) (rid : ℕ) (hwf : WF st) :
    WF (handleDeleteRecipe st rid) ∧ StepMono st (handleDeleteRecipe st rid) := by
  obtain ⟨hstock, hqty, hmidb, hridb, hmnd, hrnd⟩ := hwf
  refine ⟨⟨hstock, ?_, hmidb, ?_, hmnd, ?_⟩, le_rfl, le_rfl, ?_, ?_⟩
  · intro r hr
    exact hqty r (List.mem_of_mem_filter hr)
  · intro r hr
    exact hridb r (List.mem_of_mem_filter hr)
  · show (((st.recipes.filter (fun r => r.id != rid))).map Recipe.id).Nodup
    exact hrnd.sublist ((List.filter_sublist st.recipes).map Recipe.id)
  · intro m2 hm2
    exact Or.inl ⟨m2, hm2, rfl, le_rfl⟩
  · intro r2 hr2
    exact Or.inl ⟨r2, List.mem_of_mem_filter hr2, rfl, le_rfl⟩

/-- Rebuilding materials with an id-preserving, stock-nonnegativity- and
consumed-monotonicity-preserving function keeps the state well-formed and
growing. -/
theorem wf_mono_map_materials (st : AppState) (g : Material → Material)
    (hgid : ∀ m, (g m).id = m.id)
    (hgstock : ∀ m ∈ st.materials, 0 ≤ m.stock → 0 ≤ (g m).stock)
    (hgcons : ∀ m, m.consumed ≤ (g m).consumed)
    (hwf : WF st) :
    WF { st with materials := st.materials.map g } ∧
      StepMono st { st with materials := st.materials.map g } := by
  obtain ⟨hstock, hqty, hmidb, hridb, hmnd, hrnd⟩ := hwf
  refine ⟨⟨?_, hqty, ?_, hridb, ?_, hrnd⟩, le_rfl, le_rfl, ?_, ?_⟩
  · intro m2 hm2
    obtain ⟨m, hm, rfl⟩ := List.mem_map.mp hm2
    exact hgstock m hm (hstock m hm)
  · intro m2 hm2
    obtain ⟨m, hm, rfl⟩ := List.mem_map.mp hm2
    rw [hgid]
    exact hmidb m hm
  · show ((st.materials.map g).map Material.id).Nodup
    rw [map_material_id_eq hgid]
    exact hmnd
  · intro m2 hm2
    obtain ⟨m, hm, rfl⟩ := List.mem_map.mp hm2
    exact Or.inl ⟨m, hm, hgid m, hgcons m⟩
  · intro r2 hr2
    exact Or.inl ⟨r2, hr2, rfl, le_rfl⟩

/-- Adding a material preserves well-formedness and the growth relation. -/
theorem wf_mono_addMaterial (st : AppState) (name : String) (stock deadline : ℚ)
    (hwf : WF st) :
    WF (handleAddMaterial st name stock deadline) ∧
      StepMono st (handleAddMaterial st name stock deadline) := by
  by_cases hg : name = "" ∨ stock < 0
  · rw [handleAddMaterial, if_pos hg]
    exact ⟨hwf, stepMono_refl st⟩
  · rw [handleAddMaterial, if_neg hg]
    obtain ⟨hstock, hqty, hmidb, hridb, hmnd, hrnd⟩ := hwf
    have hstock0 : 0 ≤ stock := not_lt.mp (fun h => hg (Or.inr h))
    refine ⟨⟨?_, hqty, ?_, hridb, ?_, hrnd⟩, Nat.le_succ _, le_rfl, ?_, ?_⟩
    · intro m2 hm2
      rcases List.mem_append.mp hm2 with hm | hm
      · exact hstock m2 hm
      · rw [List.mem_singleton.mp hm]
        exact hstock0
    · intro m2 hm2
      rcases List.mem_append.mp hm2 with hm | hm
      · exact Nat.lt_succ_of_lt (hmidb m2 hm)
      · rw [List.mem_singleton.mp hm]
        exact Nat.lt_succ_self _
    · show ((st.materials ++
          [({ id := st.nextMaterialId, name := name, stock := stock, deadline := deadline,
              consumed := 0 } : Material)]).map Material.id).Nodup
      rw [List.map_append]
      refine nodup_append_singleton hmnd ?_
      intro hmem
      obtain ⟨m, hm, hid⟩ := List.mem_map.mp hmem
      exact absurd hid (Nat.ne_of_lt (hmidb m hm))
    · intro m2 hm2
      rcases List.mem_append.mp hm2 with hm | hm
      · exact Or.inl ⟨m2, hm, rfl, le_rfl⟩
      · refine Or.inr ?_
        rw [List.mem_singleton.mp hm]
    · intro r2 hr2
      exact Or.inl ⟨r2, hr2, rfl, le_rfl⟩

/-- Appending a freshly submitted recipe preserves well-formedness and the
growth relation. -/
theorem wf_mono_appendRecipe (st : AppState) (name : String) (price : ℚ)
    (raw : List RawItem) (hwf : WF st) :
    WF { st with
         recipes := st.recipes ++
           [{ id := st.nextRecipeId, name := name, price := price,
              items := raw.filterMap validItem, soldCount := 0 }],
         nextRecipeId := st.nextRecipeId + 1 } ∧
      StepMono st
        { st with
          recipes := st.recipes ++
            [{ id := st.nextRecipeId, name := name, price := price,
               items := raw.filterMap validItem, soldCount := 0 }],
          nextRecipeId := st.nextRecipeId + 1 } := by
  obtain ⟨hstock, hqty, hmidb, hridb, hmnd, hrnd⟩ := hwf
  refine ⟨⟨hstock, ?_, hmidb, ?_, hmnd, ?_⟩, le_rfl, Nat.le_succ _, ?_, ?_⟩
  · intro r2 hr2
    rcases List.mem_append.mp hr2 with hr | hr
    · exact hqty r2 hr
    · rw [List.mem_singleton.mp hr]
      intro i hi
      obtain ⟨rw2, _, hv⟩ := List.mem_filterMap.mp hi
      exact validItem_pos hv
  · intro r2 hr2
    rcases List.mem_append.mp hr2 with hr | hr
    · exact Nat.lt_succ_of_lt (hridb r2 hr)
    · rw [List.mem_singleton.mp hr]
      exact Nat.lt_succ_self _
  · show ((st.recipes ++
        [({ id := st.nextRecipeId, name := name, price := price,
            items := raw.filterMap validItem, soldCount := 0 } : Recipe)]).map Recipe.id).Nodup
    rw [List.map_append]
    refine nodup_append_singleton hrnd ?_
    intro hmem
    obtain ⟨r, hr, hid⟩ := List.mem_map.mp hmem
    exact absurd hid (Nat.ne_of_lt (hridb r hr))
  · intro m2 hm2
    exact Or.inl ⟨m2, hm2, rfl, le_rfl⟩
  · intro r2 hr2
    rcases List.mem_append.mp hr2 with hr | hr
    · exact Or.inl ⟨r2, hr, rfl, le_rfl⟩
    · refine Or.inr ?_
      rw [List.mem_singleton.mp hr]

/-- Every single operation preserves well-formedness and only grows the
counters and the monotone fields. -/
theorem step_wf_mono (st : AppState) (op : Op) (hwf : WF st) :
    WF (step st op) ∧ StepMono st (step st op) := by
  cases op with
  | recordSale rid q now =>
    simp only [step]
    cases hfind : st.recipes.find? (fun r => r.id == rid) with
    | none => exact ⟨hwf, stepMono_refl st⟩
    | some r =>
      show WF (applySell now st r q) ∧ StepMono st (applySell now st r q)
      rcases applySell_cases now st r q with heq | ⟨hq, hc, heq⟩
      · rw [heq]
        exact ⟨hwf, stepMono_refl st⟩
      · rw [heq]
        exact commitSell_wf_mono now st r q hwf (List.mem_of_find?_eq_some hfind) hq hc
  | stockIn mid q =>
    by_cases hq : q ≤ 0
    · simp only [step, handleStockIn, if_pos hq]
      exact ⟨hwf, stepMono_refl st⟩
    · simp only [step, handleStockIn, if_neg hq]
      refine wf_mono_map_materials st _ ?_ ?_ ?_ hwf
      · intro m
        cases h : m.id == mid <;> simp [h]
      · intro m _ h0
        have hq' : 0 < q := not_le.mp hq
        cases h : m.id == mid <;> simp [h] <;> linarith
      · intro m
        cases h : m.id == mid <;> simp [h]
  | addMaterial name stock deadline =>
    simp only [step]
    exact wf_mono_addMaterial st name stock deadline hwf
  | deleteMaterial mid =>
    simp only [step]
    cases hdel : handleDeleteMaterial st mid with
    | error e => exact ⟨hwf, stepMono_refl st⟩
    | ok st2 =>
      have h2 : st2 = { st with materials := st.materials.filter (fun m => m.id != mid) } := by
        by_cases hb : st.recipes.any (fun r => r.items.any (fun i => i.materialId == mid)) = true
        · rw [handleDeleteMaterial, if_pos hb] at hdel
          cases hdel
        · rw [handleDeleteMaterial, if_neg hb] at hdel
          injection hdel with h
          exact h.symm
      subst h2
      exact wf_mono_filter_materials st _ hwf
  | addRecipe name price raw =>
    simp only [step]
    rcases handleSubmitRecipe_cases st name price raw with ⟨err, herr⟩ | hok
    · rw [herr]
      exact ⟨hwf, stepMono_refl st⟩
    · rw [hok]
      exact wf_mono_appendRecipe st name price raw hwf
  | deleteRecipe rid =>
    simp only [step]
    exact wf_mono_deleteRecipe st rid hwf

/-- Well-formedness and growth extend to whole operation sequences. -/
theorem execOps_wf_mono (st : AppState) (ops : List Op) (hwf : WF st) :
    WF (execOps st ops) ∧ StepMono st (execOps st ops) := by
  induction ops generalizing st with
  | nil => exact ⟨hwf, stepMono_refl st⟩
  | cons op ops ih =>
    obtain ⟨hwf1, hmono1⟩ := step_wf_mono st op hwf
    obtain ⟨hwf2, hmono2⟩ := ih (step st op) hwf1
    exact ⟨hwf2, stepMono_trans hmono1 hmono2⟩

/-- C2: starting from a well-formed state, after any sequence of the six
operations (hence after each committed operation, instantiating the
sequence at every prefix) the state is still well-formed — in particular
every material's stock is non-negative — and every surviving material's
`consumed` and every surviving recipe's `soldCount` is at least its
initial value. -/
theorem ops_preserve_invariants (st : AppState) (ops : List Op) (hwf : WF st) :
    WF (execOps st ops) ∧
    (∀ m2 ∈ (execOps st ops).materials, 0 ≤ m2.stock) ∧
    (∀ m ∈ st.materials, ∀ m2 ∈ (execOps st ops).materials,
      m2.id = m.id → m.consumed ≤ m2.consumed) ∧
    (∀ r ∈ st.recipes, ∀ r2 ∈ (execOps st ops).recipes,
      r2.id = r.id → r.soldCount ≤ r2.soldCount) := by
  obtain ⟨hwf2, hmono⟩ := execOps_wf_mono st ops hwf
  refine ⟨hwf2, hwf2.1, ?_, ?_⟩
  · intro m hm m2 hm2 hid
    rcases hmono.2.2.1 m2 hm2 with ⟨m0, hm0, hid0, hc0⟩ | hfresh
    · have he : m0 = m :=
        List.inj_on_of_nodup_map hwf.2.2.2.2.1 hm0 hm (by rw [← hid0]; exact hid)
      exact he ▸ hc0
    · exfalso
      have hb := hwf.2.2.1 m hm
      rw [hid] at hfresh
      exact absurd hb (not_lt.mpr hfresh)
  · intro r hr r2 hr2 hid
    rcases hmono.2.2.2 r2 hr2 with ⟨r0, hr0, hid0, hc0⟩ | hfresh
    · have he : r0 = r :=
        List.inj_on_of_nodup_map hwf.2.2.2.2.2 hr0 hr (by rw [← hid0]; exact hid)
      exact he ▸ hc0
    · exfalso
      have hb := hwf.2.2.2.1 r hr
      rw [hid] at hfresh
      exact absurd hb (not_lt.mpr hfresh)

/-- C2 witness: the one-material/one-recipe fixture state is well-formed,
and stays so across a concrete stock-in followed by a sale. -/
theorem ops_preserve_invariants_witness :
    WF stC8 ∧ WF (execOps stC8 [Op.stockIn 1 5, Op.recordSale 1 1 0]) := by
  have hwf : WF stC8 := ⟨by decide, by decide, by decide, by decide, by decide, by decide⟩
  exact ⟨hwf, (ops_preserve_invariants stC8 [Op.stockIn 1 5, Op.recordSale 1 1 0] hwf).1⟩
